import Mathlib

/-!
Verification of the resumable feature-extraction pipeline in
`tools/extract.py` (Video-Swin-Transformer repository).

The development shallowly embeds the pipeline's core:

* Python string/path primitives (`str.rfind`, `os.path.basename`,
  `os.path.splitext`, `str.split`) as executable functions on `List Char`,
  modelled from CPython's `posixpath` with `os.sep = '/'`;
* the key-derivation conventions of `get_key_deriver`;
* the store-aware extraction loop `single_gpu_extract` (the HDF5 file is a
  key/value association list, `create_dataset` is an append);
* the resume planner inside `inference_pytorch` (the manifest filter);
* the recursive config rewrite `turn_off_pretrained`;
* the fatal configuration assert of `main`.
-/

namespace Extract

/-! ## Python string primitives -/

/-- Whitespace characters recognized by Python's `str.split()` (ASCII range,
which covers line-oriented manifests after `splitlines`). -/
def isPySpace (c : Char) : Bool :=
  c = ' ' || c = '\t' || c = '\n' || c = '\x0b' || c = '\x0c' || c = '\r'

/-- Models CPython `str.rfind(c)` on a single character: index of the last
occurrence, `-1` when absent. -/
def rfind (c : Char) : List Char → Int
  | [] => -1
  | x :: xs =>
    if rfind c xs ≥ 0 then rfind c xs + 1
    else if x = c then 0 else -1

/-- Models `posixpath.basename`: everything after the last `'/'`
(`p[p.rfind('/')+1:]`). -/
def basenameL (l : List Char) : List Char :=
  l.drop (rfind '/' l + 1).toNat

/-- Models `posixpath.splitext(p)[0]`: cut at the last dot when it comes after
the last slash and the characters between slash and dot are not all dots
(CPython's leading-dot rule, so `.bashrc` keeps its name). -/
def splitext_root (l : List Char) : List Char :=
  if rfind '/' l < rfind '.' l ∧
      ((l.drop (rfind '/' l + 1).toNat).take
        (rfind '.' l - (rfind '/' l + 1)).toNat).any (fun c => !(c == '.')) = true
  then l.take (rfind '.' l).toNat
  else l

/-- Models Python `p.split('/')` (split at every separator, keeping empty
pieces). -/
def splitSlash : List Char → List (List Char)
  | [] => [[]]
  | c :: cs =>
    if c = '/' then [] :: splitSlash cs
    else
      match splitSlash cs with
      | [] => [[c]]
      | h :: t => (c :: h) :: t

/-- Models Python `xs[-2:]`. -/
def lastTwo (xs : List (List Char)) : List (List Char) :=
  xs.drop (xs.length - 2)

/-- Models Python `l.split()` (split on whitespace runs, dropping empty
tokens); `acc` is the reversed current token. -/
def splitWsGo : List Char → List Char → List (List Char)
  | [], acc => if acc = [] then [] else [acc.reverse]
  | c :: cs, acc =>
    if isPySpace c then
      if acc = [] then splitWsGo cs [] else acc.reverse :: splitWsGo cs []
    else splitWsGo cs (c :: acc)

/-- Models `l.split()[0]` as a partial operation: `none` is Python's
`IndexError` on a token-less (empty or whitespace-only) line. -/
def firstToken (s : String) : Option String :=
  ((splitWsGo s.data []).head?).map (fun t => ⟨t⟩)

/-! ## Key derivation (`get_key_deriver`) -/

/-- Models the `default` lambda: `osp.splitext(osp.basename(f))[0]`. -/
def default_key (f : String) : String :=
  ⟨splitext_root (basenameL f.data)⟩

/-- Models the `webvid` lambda:
`os.sep.join(osp.splitext(f)[0].split(os.sep)[-2:])`. -/
def webvid_key (f : String) : String :=
  ⟨List.intercalate ['/'] (lastTwo (splitSlash (splitext_root f.data)))⟩

/-- Models the `anetqa` lambda: `osp.splitext(osp.basename(f))[0][2:]`. -/
def anetqa_key (f : String) : String :=
  ⟨(splitext_root (basenameL f.data)).drop 2⟩

/-- Named key-derivation conventions returned by `get_key_deriver`. -/
inductive KeyConv where
  | default : KeyConv
  | webvid : KeyConv
  | anetqa : KeyConv
deriving DecidableEq

/-- Interpretation of a convention as the corresponding source lambda. -/
def applyConv : KeyConv → String → String
  | .default => default_key
  | .webvid => webvid_key
  | .anetqa => anetqa_key

/-- Models `get_key_deriver(dataset)`: the selected convention plus the warning
message printed on the fallback paths (`none` when no warning is printed). -/
def get_key_deriver (dataset : String) : KeyConv × Option String :=
  if dataset = "webvid" then (.webvid, none)
  else if dataset = "anetqa" then (.anetqa, none)
  else if dataset ≠ "" then
    (.default, some ("Warning: dataset `" ++ dataset ++
      "` is not supported. Use basenames without extension as feature keys"))
  else
    (.default, some
      "Warning: No dataset name is given. Use basenames without extension as feature keys")

/-! ## Persistent store and extraction loop (`single_gpu_extract`) -/

/-- The HDF5 output file, abstracted to the key/value pairs created in it, in
creation order (`α` is the stored array type). -/
abbrev Store (α : Type) := List (String × α)

/-- Models the h5py membership test `key in fd`. -/
def storeContains {α : Type} (fd : Store α) (k : String) : Bool :=
  fd.any (fun e => e.1 == k)

/-- One element pulled from the data loader: the `img_metas` filename and the
payload handed to the model after `del data['img_metas']`. -/
structure Item (β : Type) where
  filename : String
  payload : β
deriving DecidableEq

/-- Observable outcome of one `single_gpu_extract` run: the final store, the
sequence of `create_dataset` writes it performed, the number of model
invocations, the uncaught model exception (if one aborted the loop), and the
number of `prog_bar.update()` calls. -/
structure LoopResult (α ε : Type) where
  store : Store α
  writes : List (String × α)
  calls : Nat
  err : Option ε
  progress : Nat
deriving DecidableEq

/-- Models the loop body of `single_gpu_extract`: for each item derive
`vid_key`; if it is not in the file, invoke the model (which may raise: the
`Except.error` case) and `create_dataset(vid_key, result.squeeze(0))`; update
the progress bar after every item.  An exception propagates uncaught,
aborting the loop with the store as written so far. -/
def single_gpu_extract {α β ε : Type} (model : β → Except ε α) (squeeze : α → α)
    (key_deriver : String → String) : List (Item β) → Store α → LoopResult α ε
  | [], fd => ⟨fd, [], 0, none, 0⟩
  | it :: rest, fd =>
    if storeContains fd (key_deriver it.filename) then
      let r := single_gpu_extract model squeeze key_deriver rest fd
      ⟨r.store, r.writes, r.calls, r.err, r.progress + 1⟩
    else
      match model it.payload with
      | .error e => ⟨fd, [], 1, some e, 0⟩
      | .ok result =>
        let r := single_gpu_extract model squeeze key_deriver rest
          (fd ++ [(key_deriver it.filename, squeeze result)])
        ⟨r.store, (key_deriver it.filename, squeeze result) :: r.writes,
          r.calls + 1, r.err, r.progress + 1⟩

/-! ## Resume planner (the `osp.isfile(args.output)` branch of
`inference_pytorch`) -/

/-- Models the comprehension
`[l for l in vidlist if not key_deriver(l.split()[0]) in f]`; `none` is the
`IndexError` raised by `l.split()[0]` on a token-less line. -/
def filterLines {α : Type} (f : Store α) (key_deriver : String → String) :
    List String → Option (List String)
  | [] => some []
  | l :: ls =>
    match firstToken l with
    | none => none
    | some t =>
      match filterLines f key_deriver ls with
      | none => none
      | some rest =>
        some (if storeContains f (key_deriver t) then rest else l :: rest)

/-- Models the resume-planning step of `inference_pytorch`: when a store file
exists at the output path, filter the manifest against it; otherwise the
original manifest is used unmodified.  The returned lines are exactly the
lines written to the filtered manifest that `cfg.data.test.ann_file` is
pointed at. -/
def inference_plan {α : Type} (storeExists : Bool) (f : Store α)
    (key_deriver : String → String) (vidlist : List String) :
    Option (List String) :=
  if storeExists then filterLines f key_deriver vidlist else some vidlist

/-- Models `l.split()[0]` applied to every residual manifest line, producing
the source identifiers the loader iterates over. -/
def tokensOf : List String → Option (List String)
  | [] => some []
  | l :: ls =>
    match firstToken l with
    | none => none
    | some t =>
      match tokensOf ls with
      | none => none
      | some ts => some (t :: ts)

/-- Modelled from the spec: the dataset/loader collaborator
(`build_dataset`/`build_dataloader`, repository code outside `tools/`) is
specified in §6 to yield a stream of `(source_identifier, payload)` pairs in
manifest order, one per manifest line, where `source_identifier` is the
line's first whitespace-delimited token.  Composition of the resume planner
with the loader and `single_gpu_extract`: plan the residual manifest, stream
its identifiers, extract. -/
def full_pipeline {α ε : Type} (model : String → Except ε α) (squeeze : α → α)
    (key_deriver : String → String) (manifest : List String) (store : Store α)
    (storeExists : Bool) : Option (LoopResult α ε) :=
  match inference_plan storeExists store key_deriver manifest with
  | none => none
  | some residual =>
    match tokensOf residual with
    | none => none
    | some ids =>
      some (single_gpu_extract model squeeze key_deriver
        (ids.map (fun t => ⟨t, t⟩)) store)

/-! ## Recursive config rewrite (`turn_off_pretrained`) -/

mutual
/-- Configuration tree of an mmcv `Config`: scalar leaves, dict nodes, and
list nodes. -/
inductive Cfg where
  | leaf : Option Nat → Cfg
  | dict : Entries → Cfg
  | list : CfgList → Cfg

/-- Ordered key/value entries of a dict node. -/
inductive Entries where
  | nil : Entries
  | cons : String → Cfg → Entries → Entries

/-- Elements of a list node. -/
inductive CfgList where
  | nil : CfgList
  | cons : Cfg → CfgList → CfgList
end

mutual
/-- Models `turn_off_pretrained(cfg)`: set the `pretrained` entry to `None`
when present, then recurse into every dict-valued entry (`isinstance(sub_cfg,
dict)`); list- and scalar-valued entries are left untouched.  The source
mutates in place and then iterates `cfg.values()`; since the updated
`pretrained` value `None` is not a dict, the single functional pass below is
observationally the same. -/
def turn_off_pretrained : Cfg → Cfg
  | .dict es => .dict (turnOffEntries es)
  | c => c

/-- Entry-wise pass of `turn_off_pretrained`. -/
def turnOffEntries : Entries → Entries
  | .nil => .nil
  | .cons k v rest =>
    .cons k (if k == "pretrained" then .leaf none else turnOffVal v)
      (turnOffEntries rest)

/-- Value-wise pass of `turn_off_pretrained`: only dict values are entered
(`isinstance(sub_cfg, dict)`); list and scalar values are left untouched. -/
def turnOffVal : Cfg → Cfg
  | .dict d => .dict (turnOffEntries d)
  | v => v
end

/-- Holds when a config value still counts as a set (non-`None`) `pretrained`
value: anything but the scalar `None`. -/
def isSetVal : Cfg → Bool
  | .leaf none => false
  | _ => true

mutual
/-- Holds when some node anywhere in the tree (dicts inside lists included)
carries a non-`None` `pretrained` entry. -/
def anyPretrainedSet : Cfg → Bool
  | .leaf _ => false
  | .dict es => anyPretrainedEntries es
  | .list l => anyPretrainedList l

/-- Search of `anyPretrainedSet` over dict entries. -/
def anyPretrainedEntries : Entries → Bool
  | .nil => false
  | .cons k v rest =>
    ((k == "pretrained") && isSetVal v) || anyPretrainedSet v ||
      anyPretrainedEntries rest

/-- Search of `anyPretrainedSet` over list elements. -/
def anyPretrainedList : CfgList → Bool
  | .nil => false
  | .cons c rest => anyPretrainedSet c || anyPretrainedList rest
end

mutual
/-- Holds when every node reachable from the root through chains of
dict-valued entries has its `pretrained` entries (if any) equal to `None`. -/
def dictReachClean : Cfg → Bool
  | .dict es => dictReachCleanEntries es
  | _ => true

/-- Entry-wise check of `dictReachClean`. -/
def dictReachCleanEntries : Entries → Bool
  | .nil => true
  | .cons k v rest =>
    (!((k == "pretrained") && isSetVal v)) && dictReachVal v &&
      dictReachCleanEntries rest

/-- Value-wise check of `dictReachClean`: only dict values are reachable. -/
def dictReachVal : Cfg → Bool
  | .dict d => dictReachCleanEntries d
  | _ => true
end

/-! ## Fatal configuration check (`main`) -/

/-- Errors raised by `main` before any model work. -/
inductive MainError where
  | attributeError : MainError
  | assertionError : String → MainError
deriving DecidableEq

/-- Models the manifest-configuration check of `main`: accessing
`cfg.data.test.ann_file` raises when the field is missing (`none`), and
`assert cfg.data.test.ann_file, "No video list provided"` raises when the
configured video list is empty (falsy). -/
def main_check (annFile : Option String) : Except MainError String :=
  match annFile with
  | none => .error .attributeError
  | some a =>
    if a = "" then .error (.assertionError "No video list provided")
    else .ok a

/-- Models `main`: the configuration check runs first; only on success does
`inference_pytorch` (model building, checkpoint loading, extraction) run.  An
uncaught exception makes the process exit non-zero. -/
def main_run {α ε : Type} (annFile : Option String)
    (pipelineOf : String → LoopResult α ε) : Except MainError (LoopResult α ε) :=
  match main_check annFile with
  | .error e => .error e
  | .ok a => .ok (pipelineOf a)

/-- Models `main` composed with the extraction pipeline: the configuration
check on `cfg.data.test.ann_file` runs first, and only on success does the
pipeline run over the manifest file's content.  `manifestOf` maps the
configured path to the file's line list, as read by
`open(cfg.data.test.ann_file).read().splitlines()` in the resume branch — an
existing file with empty content yields `[]`. -/
def main_pipeline {α ε : Type} (annFile : Option String)
    (manifestOf : String → List String) (model : String → Except ε α)
    (squeeze : α → α) (key_deriver : String → String) (store : Store α)
    (storeExists : Bool) : Except MainError (Option (LoopResult α ε)) :=
  match main_check annFile with
  | .error e => .error e
  | .ok a =>
    .ok (full_pipeline model squeeze key_deriver (manifestOf a) store storeExists)

/-! ## Helper lemmas about the extraction loop -/

theorem storeContains_append_left {α : Type} (fd l : Store α) (k : String)
    (h : storeContains fd k = true) : storeContains (fd ++ l) k = true := by
  simp only [storeContains, List.any_append, Bool.or_eq_true]
  exact Or.inl h

theorem extract_store_append {α β ε : Type} (model : β → Except ε α)
    (squeeze : α → α) (kp : String → String) :
    ∀ (items : List (Item β)) (fd : Store α),
      (single_gpu_extract model squeeze kp items fd).store =
        fd ++ (single_gpu_extract model squeeze kp items fd).writes
  | [], fd => by simp [single_gpu_extract]
  | it :: rest, fd => by
    cases hc : storeContains fd (kp it.filename) with
    | true =>
      simpa [single_gpu_extract, hc] using
        extract_store_append model squeeze kp rest fd
    | false =>
      cases hm : model it.payload with
      | error e => simp [single_gpu_extract, hc, hm]
      | ok v =>
        have ih := extract_store_append model squeeze kp rest
          (fd ++ [(kp it.filename, squeeze v)])
        simp [single_gpu_extract, hc, hm, ih]

theorem extract_writes_fresh {α β ε : Type} (model : β → Except ε α)
    (squeeze : α → α) (kp : String → String) :
    ∀ (items : List (Item β)) (fd : Store α) (k : String),
      storeContains fd k = true →
      k ∉ (single_gpu_extract model squeeze kp items fd).writes.map Prod.fst
  | [], fd, k, _ => by simp [single_gpu_extract]
  | it :: rest, fd, k, h => by
    cases hc : storeContains fd (kp it.filename) with
    | true =>
      simpa [single_gpu_extract, hc] using
        extract_writes_fresh model squeeze kp rest fd k h
    | false =>
      cases hm : model it.payload with
      | error e => simp [single_gpu_extract, hc, hm]
      | ok v =>
        have hk : k ≠ kp it.filename := by
          intro hkk
          rw [hkk] at h
          simp [h] at hc
        have ih := extract_writes_fresh model squeeze kp rest
          (fd ++ [(kp it.filename, squeeze v)]) k
          (storeContains_append_left fd _ k h)
        simp [single_gpu_extract, hc, hm, hk, ih]

theorem extract_writes_nodup {α β ε : Type} (model : β → Except ε α)
    (squeeze : α → α) (kp : String → String) :
    ∀ (items : List (Item β)) (fd : Store α),
      ((single_gpu_extract model squeeze kp items fd).writes.map Prod.fst).Nodup
  | [], fd => by simp [single_gpu_extract]
  | it :: rest, fd => by
    cases hc : storeContains fd (kp it.filename) with
    | true =>
      simpa [single_gpu_extract, hc] using
        extract_writes_nodup model squeeze kp rest fd
    | false =>
      cases hm : model it.payload with
      | error e => simp [single_gpu_extract, hc, hm]
      | ok v =>
        have hmem : storeContains (fd ++ [(kp it.filename, squeeze v)])
            (kp it.filename) = true := by
          simp [storeContains]
        have hfresh := extract_writes_fresh model squeeze kp rest
          (fd ++ [(kp it.filename, squeeze v)]) (kp it.filename) hmem
        have ih := extract_writes_nodup model squeeze kp rest
          (fd ++ [(kp it.filename, squeeze v)])
        simp [single_gpu_extract, hc, hm, List.nodup_cons, hfresh, ih]

theorem extract_complete {α β ε : Type} (model : β → Except ε α)
    (squeeze : α → α) (kp : String → String) :
    ∀ (items : List (Item β)) (fd : Store α),
      (single_gpu_extract model squeeze kp items fd).err = none →
      ∀ it ∈ items,
        storeContains (single_gpu_extract model squeeze kp items fd).store
          (kp it.filename) = true
  | [], _, _, it, hit => by simp at hit
  | it0 :: rest, fd, herr, it, hit => by
    cases hc : storeContains fd (kp it0.filename) with
    | true =>
      have herr' : (single_gpu_extract model squeeze kp rest fd).err = none := by
        simpa [single_gpu_extract, hc] using herr
      rcases List.mem_cons.mp hit with h | h
      · subst h
        have hst := extract_store_append model squeeze kp rest fd
        have : storeContains (single_gpu_extract model squeeze kp rest fd).store
            (kp it.filename) = true := by
          rw [hst]; exact storeContains_append_left fd _ _ hc
        simpa [single_gpu_extract, hc] using this
      · simpa [single_gpu_extract, hc] using
          extract_complete model squeeze kp rest fd herr' it h
    | false =>
      cases hm : model it0.payload with
      | error e => simp [single_gpu_extract, hc, hm] at herr
      | ok v =>
        have herr' : (single_gpu_extract model squeeze kp rest
            (fd ++ [(kp it0.filename, squeeze v)])).err = none := by
          simpa [single_gpu_extract, hc, hm] using herr
        rcases List.mem_cons.mp hit with h | h
        · subst h
          have hmem : storeContains (fd ++ [(kp it.filename, squeeze v)])
              (kp it.filename) = true := by simp [storeContains]
          have hst := extract_store_append model squeeze kp rest
            (fd ++ [(kp it.filename, squeeze v)])
          have : storeContains (single_gpu_extract model squeeze kp rest
              (fd ++ [(kp it.filename, squeeze v)])).store (kp it.filename) = true := by
            rw [hst]; exact storeContains_append_left _ _ _ hmem
          simpa [single_gpu_extract, hc, hm] using this
        · simpa [single_gpu_extract, hc, hm] using
            extract_complete model squeeze kp rest
              (fd ++ [(kp it0.filename, squeeze v)]) herr' it h

/-! ## Helper lemmas about the resume planner -/

theorem filterLines_eq_filter {α : Type} (f : Store α) (kp : String → String) :
    ∀ (ls : List String), (∀ l ∈ ls, (firstToken l).isSome) →
      filterLines f kp ls =
        some (ls.filter (fun l => !(storeContains f (kp ((firstToken l).getD "")))))
  | [], _ => by simp [filterLines]
  | l :: ls, h => by
    obtain ⟨t, ht⟩ := Option.isSome_iff_exists.mp (h l (List.mem_cons_self l ls))
    have ih := filterLines_eq_filter f kp ls (fun x hx => h x (List.mem_cons_of_mem l hx))
    cases hs : storeContains f (kp t) with
    | true => simp [filterLines, ht, ih, List.filter_cons, hs]
    | false => simp [filterLines, ht, ih, List.filter_cons, hs]

theorem filterLines_none_of_mem {α : Type} (f : Store α) (kp : String → String) :
    ∀ (ls : List String) (l : String), l ∈ ls → firstToken l = none →
      filterLines f kp ls = none
  | [], l, hl, _ => by simp at hl
  | l0 :: ls, l, hl, ht => by
    rcases List.mem_cons.mp hl with h | h
    · subst h
      simp [filterLines, ht]
    · cases ht0 : firstToken l0 with
      | none => simp [filterLines, ht0]
      | some t0 =>
        have ih := filterLines_none_of_mem f kp ls l h ht
        simp [filterLines, ht0, ih]

theorem filterLines_forall_lines {α : Type} (f : Store α) (kp : String → String) :
    ∀ (ls res : List String), filterLines f kp ls = some res →
      ∀ l ∈ ls, ∃ t, firstToken l = some t ∧
        (storeContains f (kp t) = true ∨ l ∈ res)
  | [], _, _, l, hl => by simp at hl
  | l0 :: ls, res, hres, l, hl => by
    cases ht0 : firstToken l0 with
    | none => simp [filterLines, ht0] at hres
    | some t0 =>
      cases hrec : filterLines f kp ls with
      | none => simp [filterLines, ht0, hrec] at hres
      | some rest =>
        have hres' : res = if storeContains f (kp t0) then rest else l0 :: rest := by
          have := hres
          simp only [filterLines, ht0, hrec] at this
          exact (Option.some.injEq _ _ ▸ this.symm)
        rcases List.mem_cons.mp hl with h | h
        · subst h
          refine ⟨t0, ht0, ?_⟩
          cases hs : storeContains f (kp t0) with
          | true => exact Or.inl rfl
          | false =>
            right
            rw [hres']
            simp [hs]
        · obtain ⟨t, ht, hor⟩ := filterLines_forall_lines f kp ls rest hrec l h
          refine ⟨t, ht, ?_⟩
          rcases hor with hor | hor
          · exact Or.inl hor
          · right
            rw [hres']
            cases hs : storeContains f (kp t0) with
            | true => simpa using hor
            | false => simp [hor]

theorem filterLines_all_present {α : Type} (f : Store α) (kp : String → String) :
    ∀ (ls : List String),
      (∀ l ∈ ls, ∃ t, firstToken l = some t ∧ storeContains f (kp t) = true) →
      filterLines f kp ls = some []
  | [], _ => by simp [filterLines]
  | l0 :: ls, h => by
    obtain ⟨t0, ht0, hs0⟩ := h l0 (List.mem_cons_self l0 ls)
    have ih := filterLines_all_present f kp ls
      (fun x hx => h x (List.mem_cons_of_mem l0 hx))
    simp [filterLines, ht0, ih, hs0]

theorem tokensOf_forall :
    ∀ (ls ts : List String), tokensOf ls = some ts →
      ∀ l ∈ ls, ∃ t, firstToken l = some t ∧ t ∈ ts
  | [], _, _, l, hl => by simp at hl
  | l0 :: ls, ts, hts, l, hl => by
    cases ht0 : firstToken l0 with
    | none => simp [tokensOf, ht0] at hts
    | some t0 =>
      cases hrec : tokensOf ls with
      | none => simp [tokensOf, ht0, hrec] at hts
      | some rest =>
        have hts' : ts = t0 :: rest := by
          have := hts
          simp only [tokensOf, ht0, hrec] at this
          exact (Option.some.injEq _ _ ▸ this.symm)
        subst hts'
        rcases List.mem_cons.mp hl with h | h
        · subst h
          exact ⟨t0, ht0, List.mem_cons_self _ _⟩
        · obtain ⟨t, ht, hmem⟩ := tokensOf_forall ls rest hrec l h
          exact ⟨t, ht, List.mem_cons_of_mem _ hmem⟩

theorem tokensOf_isSome_of_mem :
    ∀ (ls ts : List String), tokensOf ls = some ts →
      ∀ l ∈ ls, (firstToken l).isSome
  | [], _, _, l, hl => by simp at hl
  | l0 :: ls, ts, hts, l, hl => by
    cases ht0 : firstToken l0 with
    | none => simp [tokensOf, ht0] at hts
    | some t0 =>
      cases hrec : tokensOf ls with
      | none => simp [tokensOf, ht0, hrec] at hts
      | some rest =>
        rcases List.mem_cons.mp hl with h | h
        · subst h; simp [ht0]
        · exact tokensOf_isSome_of_mem ls rest hrec l h

theorem extract_err_propagates {α β ε : Type} (model : β → Except ε α)
    (squeeze : α → α) (kp : String → String) :
    ∀ (pre : List (Item β)) (it : Item β) (suf : List (Item β)) (fd : Store α)
      (e : ε),
      (single_gpu_extract model squeeze kp pre fd).err = none →
      storeContains (single_gpu_extract model squeeze kp pre fd).store
        (kp it.filename) = false →
      model it.payload = Except.error e →
      (single_gpu_extract model squeeze kp (pre ++ it :: suf) fd).err = some e ∧
      (single_gpu_extract model squeeze kp (pre ++ it :: suf) fd).store =
        (single_gpu_extract model squeeze kp pre fd).store
  | [], it, suf, fd, e, _, hcont, hm => by
    have hc : storeContains fd (kp it.filename) = false := by
      simpa [single_gpu_extract] using hcont
    constructor
    · simp [single_gpu_extract, hc, hm]
    · simp [single_gpu_extract, hc, hm]
  | p :: pre, it, suf, fd, e, herr, hcont, hm => by
    cases hc : storeContains fd (kp p.filename) with
    | true =>
      have herr' : (single_gpu_extract model squeeze kp pre fd).err = none := by
        simpa [single_gpu_extract, hc] using herr
      have hcont' : storeContains
          (single_gpu_extract model squeeze kp pre fd).store (kp it.filename) = false := by
        simpa [single_gpu_extract, hc] using hcont
      have ih := extract_err_propagates model squeeze kp pre it suf fd e herr' hcont' hm
      constructor
      · simpa [single_gpu_extract, hc] using ih.1
      · have h2 := ih.2
        simpa [single_gpu_extract, hc] using h2
    | false =>
      cases hm0 : model p.payload with
      | error e0 => simp [single_gpu_extract, hc, hm0] at herr
      | ok v =>
        have herr' : (single_gpu_extract model squeeze kp pre
            (fd ++ [(kp p.filename, squeeze v)])).err = none := by
          simpa [single_gpu_extract, hc, hm0] using herr
        have hcont' : storeContains
            (single_gpu_extract model squeeze kp pre
              (fd ++ [(kp p.filename, squeeze v)])).store (kp it.filename) = false := by
          simpa [single_gpu_extract, hc, hm0] using hcont
        have ih := extract_err_propagates model squeeze kp pre it suf
          (fd ++ [(kp p.filename, squeeze v)]) e herr' hcont' hm
        constructor
        · simpa [single_gpu_extract, hc, hm0] using ih.1
        · have h2 := ih.2
          simpa [single_gpu_extract, hc, hm0] using h2

theorem extract_err_split {α β ε : Type} (model : β → Except ε α)
    (squeeze : α → α) (kp : String → String) :
    ∀ (items : List (Item β)) (fd : Store α) (e : ε),
      (single_gpu_extract model squeeze kp items fd).err = some e →
      ∃ pre it suf,
        items = pre ++ it :: suf ∧
        (single_gpu_extract model squeeze kp pre fd).err = none ∧
        (single_gpu_extract model squeeze kp items fd).store =
          (single_gpu_extract model squeeze kp pre fd).store ∧
        storeContains (single_gpu_extract model squeeze kp pre fd).store
          (kp it.filename) = false ∧
        model it.payload = Except.error e
  | [], fd, e, h => by simp [single_gpu_extract] at h
  | it0 :: rest, fd, e, h => by
    cases hc : storeContains fd (kp it0.filename) with
    | true =>
      have h' : (single_gpu_extract model squeeze kp rest fd).err = some e := by
        simpa [single_gpu_extract, hc] using h
      obtain ⟨pre, it, suf, hsplit, herr, hstore, hcont, hmod⟩ :=
        extract_err_split model squeeze kp rest fd e h'
      refine ⟨it0 :: pre, it, suf, by simp [hsplit], ?_, ?_, ?_, hmod⟩
      · simp [single_gpu_extract, hc, herr]
      · have hw : (single_gpu_extract model squeeze kp (it0 :: rest) fd).store =
            (single_gpu_extract model squeeze kp rest fd).store := by
          simp [single_gpu_extract, hc]
        have hp : (single_gpu_extract model squeeze kp (it0 :: pre) fd).store =
            (single_gpu_extract model squeeze kp pre fd).store := by
          simp [single_gpu_extract, hc]
        rw [hw, hp, hstore]
      · have hp : (single_gpu_extract model squeeze kp (it0 :: pre) fd).store =
            (single_gpu_extract model squeeze kp pre fd).store := by
          simp [single_gpu_extract, hc]
        rw [hp]; exact hcont
    | false =>
      cases hm : model it0.payload with
      | error e0 =>
        have he : e0 = e := by simpa [single_gpu_extract, hc, hm] using h
        subst he
        refine ⟨[], it0, rest, rfl, by simp [single_gpu_extract], ?_, ?_, hm⟩
        · simp [single_gpu_extract, hc, hm]
        · simpa [single_gpu_extract] using hc
      | ok v =>
        have h' : (single_gpu_extract model squeeze kp rest
            (fd ++ [(kp it0.filename, squeeze v)])).err = some e := by
          simpa [single_gpu_extract, hc, hm] using h
        obtain ⟨pre, it, suf, hsplit, herr, hstore, hcont, hmod⟩ :=
          extract_err_split model squeeze kp rest
            (fd ++ [(kp it0.filename, squeeze v)]) e h'
        refine ⟨it0 :: pre, it, suf, by simp [hsplit], ?_, ?_, ?_, hmod⟩
        · simp [single_gpu_extract, hc, hm, herr]
        · have hw : (single_gpu_extract model squeeze kp (it0 :: rest) fd).store =
              (single_gpu_extract model squeeze kp rest
                (fd ++ [(kp it0.filename, squeeze v)])).store := by
            simp [single_gpu_extract, hc, hm]
          have hp : (single_gpu_extract model squeeze kp (it0 :: pre) fd).store =
              (single_gpu_extract model squeeze kp pre
                (fd ++ [(kp it0.filename, squeeze v)])).store := by
            simp [single_gpu_extract, hc, hm]
          rw [hw, hp, hstore]
        · have hp : (single_gpu_extract model squeeze kp (it0 :: pre) fd).store =
              (single_gpu_extract model squeeze kp pre
                (fd ++ [(kp it0.filename, squeeze v)])).store := by
            simp [single_gpu_extract, hc, hm]
          rw [hp]; exact hcont

theorem splitWsGo_space :
    ∀ (l : List Char), (∀ c ∈ l, isPySpace c = true) → splitWsGo l [] = []
  | [], _ => by simp [splitWsGo]
  | c :: cs, h => by
    have hc := h c (List.mem_cons_self c cs)
    have ih := splitWsGo_space cs (fun x hx => h x (List.mem_cons_of_mem c hx))
    simp [splitWsGo, hc, ih]

/-! ## Claim theorems -/

/-- C1: on a first run (no store file at the output path) the planner returns
the original manifest unmodified; on a resume run it retains exactly those
manifest lines whose key — derived by the selected convention from the line's
first whitespace-delimited token — is absent from the store, in their
original relative order (`List.filter` preserves order), and this residual
list is what the loader is configured with (see `full_pipeline`).  The
well-formedness hypothesis says every manifest line has a first token, which
is the manifest format §4.3 prescribes (see C10 for token-less lines). -/
theorem C1_resume_planner {α : Type} (f : Store α) (key_deriver : String → String)
    (manifest : List String) (hw : ∀ l ∈ manifest, (firstToken l).isSome) :
    inference_plan false f key_deriver manifest = some manifest ∧
    inference_plan true f key_deriver manifest =
      some (manifest.filter
        (fun l => !(storeContains f (key_deriver ((firstToken l).getD ""))))) := by
  constructor
  · simp [inference_plan]
  · simp [inference_plan, filterLines_eq_filter f key_deriver manifest hw]

/-- Witness for C1 at a concrete manifest and store: line `"a.mp4 3"` has key
`"a"` which is in the store, so only `"b.mp4"` is retained. -/
theorem C1_resume_planner_witness :
    (∀ l ∈ ["a.mp4 3", "b.mp4"], (firstToken l).isSome) ∧
    inference_plan false ([("a", 5)] : Store Nat) default_key ["a.mp4 3", "b.mp4"] =
      some ["a.mp4 3", "b.mp4"] ∧
    inference_plan true ([("a", 5)] : Store Nat) default_key ["a.mp4 3", "b.mp4"] =
      some ["b.mp4"] := by
  refine ⟨by decide, (C1_resume_planner _ _ _ (by decide)).1, ?_⟩
  rw [(C1_resume_planner ([("a", 5)] : Store Nat) default_key ["a.mp4 3", "b.mp4"]
    (by decide)).2]
  decide

/-- C2: keys already present in the initial store are never written (put)
again by the extraction loop, regardless of the streamed items, and no key is
ever written twice within one run — the loop derives each item's key and only
invokes the model and creates the store entry when the key is absent. -/
theorem C2_no_overwrite {α β ε : Type} (model : β → Except ε α)
    (squeeze : α → α) (key_deriver : String → String) (items : List (Item β))
    (fd : Store α) :
    (∀ k, storeContains fd k = true →
      k ∉ (single_gpu_extract model squeeze key_deriver items fd).writes.map
        Prod.fst) ∧
    ((single_gpu_extract model squeeze key_deriver items fd).writes.map
      Prod.fst).Nodup :=
  ⟨fun k hk => extract_writes_fresh model squeeze key_deriver items fd k hk,
   extract_writes_nodup model squeeze key_deriver items fd⟩

/-- Witness for C2: with key `"a"` already stored, streaming `d/a.mp4` (and a
duplicate of it) plus `d/b.mp4` never writes `"a"`. -/
theorem C2_no_overwrite_witness :
    storeContains ([("a", 7)] : Store Nat) "a" = true ∧
    "a" ∉ (single_gpu_extract (fun (_ : String) => (Except.ok 5 : Except Unit Nat))
      id default_key
      [⟨"d/a.mp4", "d/a.mp4"⟩, ⟨"d/b.mp4", "d/b.mp4"⟩, ⟨"e/a.mp4", "e/a.mp4"⟩]
      ([("a", 7)] : Store Nat)).writes.map Prod.fst :=
  ⟨by decide,
   (C2_no_overwrite (fun (_ : String) => (Except.ok 5 : Except Unit Nat)) id
     default_key
     [⟨"d/a.mp4", "d/a.mp4"⟩, ⟨"d/b.mp4", "d/b.mp4"⟩, ⟨"e/a.mp4", "e/a.mp4"⟩]
     ([("a", 7)] : Store Nat)).1 "a" (by decide)⟩

/-- C4: a model-invocation failure is not caught.  First conjunct: whenever
the loop aborts with an uncaught exception, the stream splits as
`pre ++ it :: suf` where every item of `pre` completed (that prefix ran
error-free), the store at abort is exactly the store after `pre`, and `it` is
the fresh-keyed item whose invocation raised.  Second conjunct: conversely,
if an item with a fresh key raises after an error-free prefix, the exception
propagates — the whole loop aborts with it and the store stays at the state
reached after the prefix. -/
theorem C4_failure_semantics {α β ε : Type} (model : β → Except ε α)
    (squeeze : α → α) (key_deriver : String → String) (items pre suf : List (Item β))
    (it : Item β) (fd : Store α) (e : ε) :
    ((single_gpu_extract model squeeze key_deriver items fd).err = some e →
      ∃ pre' it' suf',
        items = pre' ++ it' :: suf' ∧
        (single_gpu_extract model squeeze key_deriver pre' fd).err = none ∧
        (single_gpu_extract model squeeze key_deriver items fd).store =
          (single_gpu_extract model squeeze key_deriver pre' fd).store ∧
        storeContains (single_gpu_extract model squeeze key_deriver pre' fd).store
          (key_deriver it'.filename) = false ∧
        model it'.payload = Except.error e) ∧
    (items = pre ++ it :: suf →
      (single_gpu_extract model squeeze key_deriver pre fd).err = none →
      storeContains (single_gpu_extract model squeeze key_deriver pre fd).store
        (key_deriver it.filename) = false →
      model it.payload = Except.error e →
      (single_gpu_extract model squeeze key_deriver items fd).err = some e ∧
      (single_gpu_extract model squeeze key_deriver items fd).store =
        (single_gpu_extract model squeeze key_deriver pre fd).store) := by
  constructor
  · exact extract_err_split model squeeze key_deriver items fd e
  · intro hsplit herr hcont hm
    subst hsplit
    exact extract_err_propagates model squeeze key_deriver pre it suf fd e herr
      hcont hm

/-- Witness for C4: the second of three items raises; the loop aborts with the
store holding exactly the first item's entry. -/
theorem C4_failure_semantics_witness :
    (single_gpu_extract
        (fun (s : String) =>
          if s = "bad" then (Except.error 0 : Except Nat Nat) else Except.ok 1)
        id (fun s => s)
        [⟨"good", "good"⟩, ⟨"bad", "bad"⟩, ⟨"later", "later"⟩]
        ([] : Store Nat)).err = some 0 ∧
    (∃ pre' it' suf',
      [(⟨"good", "good"⟩ : Item String), ⟨"bad", "bad"⟩, ⟨"later", "later"⟩] =
        pre' ++ it' :: suf' ∧
      (single_gpu_extract
        (fun (s : String) =>
          if s = "bad" then (Except.error 0 : Except Nat Nat) else Except.ok 1)
        id (fun s => s) pre' ([] : Store Nat)).err = none ∧
      (single_gpu_extract
        (fun (s : String) =>
          if s = "bad" then (Except.error 0 : Except Nat Nat) else Except.ok 1)
        id (fun s => s)
        [⟨"good", "good"⟩, ⟨"bad", "bad"⟩, ⟨"later", "later"⟩]
        ([] : Store Nat)).store =
        (single_gpu_extract
          (fun (s : String) =>
            if s = "bad" then (Except.error 0 : Except Nat Nat) else Except.ok 1)
          id (fun s => s) pre' ([] : Store Nat)).store ∧
      storeContains
        (single_gpu_extract
          (fun (s : String) =>
            if s = "bad" then (Except.error 0 : Except Nat Nat) else Except.ok 1)
          id (fun s => s) pre' ([] : Store Nat)).store ((fun s => s) it'.filename)
        = false ∧
      (fun (s : String) =>
        if s = "bad" then (Except.error 0 : Except Nat Nat) else Except.ok 1)
        it'.payload = Except.error 0) ∧
    ((single_gpu_extract
        (fun (s : String) =>
          if s = "bad" then (Except.error 0 : Except Nat Nat) else Except.ok 1)
        id (fun s => s)
        [⟨"good", "good"⟩, ⟨"bad", "bad"⟩, ⟨"later", "later"⟩]
        ([] : Store Nat)).err = some 0 ∧
      (single_gpu_extract
        (fun (s : String) =>
          if s = "bad" then (Except.error 0 : Except Nat Nat) else Except.ok 1)
        id (fun s => s)
        [⟨"good", "good"⟩, ⟨"bad", "bad"⟩, ⟨"later", "later"⟩]
        ([] : Store Nat)).store =
        (single_gpu_extract
          (fun (s : String) =>
            if s = "bad" then (Except.error 0 : Except Nat Nat) else Except.ok 1)
          id (fun s => s) [⟨"good", "good"⟩] ([] : Store Nat)).store) :=
  ⟨by decide,
   (C4_failure_semantics
     (fun (s : String) =>
       if s = "bad" then (Except.error 0 : Except Nat Nat) else Except.ok 1)
     id (fun s => s)
     [⟨"good", "good"⟩, ⟨"bad", "bad"⟩, ⟨"later", "later"⟩]
     [⟨"good", "good"⟩] [⟨"later", "later"⟩] ⟨"bad", "bad"⟩
     ([] : Store Nat) 0).1 (by decide),
   (C4_failure_semantics
     (fun (s : String) =>
       if s = "bad" then (Except.error 0 : Except Nat Nat) else Except.ok 1)
     id (fun s => s)
     [⟨"good", "good"⟩, ⟨"bad", "bad"⟩, ⟨"later", "later"⟩]
     [⟨"good", "good"⟩] [⟨"later", "later"⟩] ⟨"bad", "bad"⟩
     ([] : Store Nat) 0).2 rfl (by decide) (by decide) rfl⟩

/-- C6: every convention name outside the supported set
`{webvid, anetqa}` — the empty name included — selects the default derivation
and emits a warning; `get_key_deriver` is total, so selection never raises and
never aborts extraction. -/
theorem C6_unknown_convention (dataset : String) (h1 : dataset ≠ "webvid")
    (h2 : dataset ≠ "anetqa") :
    (get_key_deriver dataset).1 = KeyConv.default ∧
    ((get_key_deriver dataset).2).isSome = true := by
  by_cases h3 : dataset = ""
  · subst h3
    simp [get_key_deriver]
  · simp [get_key_deriver, h1, h2, h3]

/-- Witness for C6 at an unsupported name and at the empty name. -/
theorem C6_unknown_convention_witness :
    ((get_key_deriver "kinetics").1 = KeyConv.default ∧
      ((get_key_deriver "kinetics").2).isSome = true) ∧
    ((get_key_deriver "").1 = KeyConv.default ∧
      ((get_key_deriver "").2).isSome = true) :=
  ⟨C6_unknown_convention "kinetics" (by decide) (by decide),
   C6_unknown_convention "" (by decide) (by decide)⟩

/-- C7 counterexample: with the video list configured (a nonempty `ann_file`
path) but the manifest file's content empty, a resume run passes the
configuration check, plans an empty residual list, and completes with zero
model invocations, zero writes, and no error — the pipeline proceeds
silently with zero items and exits zero, refuting the claim that every run
with an empty input manifest fails fast and exits non-zero. -/
theorem C7_fatal_config_counterexample :
    main_pipeline (some "list.txt") (fun _ => [])
      (fun (_ : String) => (Except.ok 5 : Except Unit Nat)) id default_key
      ([] : Store Nat) true =
      Except.ok (some ⟨[], [], 0, none, 0⟩) := rfl

/-- C7 (amended): only the configured video list is checked — when the
`ann_file` field is missing (accessing it raises) or is the empty string
(the `assert` fires), `main` raises before `inference_pytorch` and hence
before any model work, so the process exits non-zero; but a manifest file
that exists with empty content is not detected: the pipeline proceeds with
zero items, performs zero model invocations, writes nothing, and exits
cleanly. -/
theorem C7_fatal_config {α ε : Type} (model : String → Except ε α)
    (squeeze : α → α) (key_deriver : String → String) (store : Store α)
    (manifestOf : String → List String) (annFile : Option String)
    (path : String) (storeExists : Bool)
    (h : annFile = none ∨ annFile = some "") (hpath : path ≠ "")
    (hempty : manifestOf path = []) :
    ((∃ e, main_pipeline annFile manifestOf model squeeze key_deriver store
        storeExists = Except.error e) ∧
      ∀ r, main_pipeline annFile manifestOf model squeeze key_deriver store
        storeExists ≠ Except.ok r) ∧
    main_pipeline (some path) manifestOf model squeeze key_deriver store
      storeExists = Except.ok (some ⟨store, [], 0, none, 0⟩) := by
  constructor
  · rcases h with h | h <;> subst h
    · exact ⟨⟨.attributeError, rfl⟩,
        fun r => by simp [main_pipeline, main_check]⟩
    · exact ⟨⟨.assertionError "No video list provided", rfl⟩,
        fun r => by simp [main_pipeline, main_check]⟩
  · cases storeExists with
    | true =>
      simp [main_pipeline, main_check, hpath, hempty, full_pipeline,
        inference_plan, filterLines, tokensOf, single_gpu_extract]
    | false =>
      simp [main_pipeline, main_check, hpath, hempty, full_pipeline,
        inference_plan, filterLines, tokensOf, single_gpu_extract]

/-- Witness for C7 at the empty video-list configuration (the `assert` path)
and at a configured path whose manifest content is empty (the silent
zero-item run). -/
theorem C7_fatal_config_witness :
    ((some "" : Option String) = none ∨ (some "" : Option String) = some "") ∧
    ("list.txt" : String) ≠ "" ∧
    (∃ e, main_pipeline (some "") (fun _ => ([] : List String))
      (fun (_ : String) => (Except.ok 5 : Except Unit Nat)) id default_key
      ([] : Store Nat) true = Except.error e) ∧
    main_pipeline (some "list.txt") (fun _ => ([] : List String))
      (fun (_ : String) => (Except.ok 5 : Except Unit Nat)) id default_key
      ([] : Store Nat) true = Except.ok (some ⟨[], [], 0, none, 0⟩) := by
  have happ := C7_fatal_config
    (fun (_ : String) => (Except.ok 5 : Except Unit Nat)) id default_key
    ([] : Store Nat) (fun _ => ([] : List String)) (some "") "list.txt" true
    (Or.inr rfl) (by decide) rfl
  exact ⟨Or.inr rfl, by decide, happ.1.1, happ.2⟩

/-- C10: the resume-time manifest filter is not total: on a resume run whose
manifest contains an empty or whitespace-only line, `l.split()[0]` raises
`IndexError` (modelled by `none`), so planning aborts instead of retaining or
filtering that line. -/
theorem C10_planner_index_error {α : Type} (f : Store α)
    (key_deriver : String → String) (manifest : List String) (l : String)
    (hl : l ∈ manifest) (hsp : ∀ c ∈ l.data, isPySpace c = true) :
    inference_plan true f key_deriver manifest = none := by
  have ht : firstToken l = none := by
    simp [firstToken, splitWsGo_space l.data hsp]
  simp [inference_plan, filterLines_none_of_mem f key_deriver manifest l hl ht]

/-- Witness for C10: a manifest whose second line is a single space aborts
planning. -/
theorem C10_planner_index_error_witness :
    (" " ∈ ["a.mp4", " "] ∧ ∀ c ∈ (" " : String).data, isPySpace c = true) ∧
    inference_plan true ([] : Store Nat) default_key ["a.mp4", " "] = none :=
  ⟨⟨by decide, by decide⟩,
   C10_planner_index_error ([] : Store Nat) default_key ["a.mp4", " "] " "
     (by decide) (by decide)⟩

/-- C3: resume idempotence.  If a full pipeline run completes without error,
re-running the identical pipeline against the resulting store plans an empty
residual worklist, performs zero model invocations, writes nothing (the
store's keys and values are unchanged), and exits cleanly; and in general an
empty item stream yields zero model invocations, zero writes, and a clean
exit. -/
theorem C3_resume_idempotence {α ε : Type} (model : String → Except ε α)
    (squeeze : α → α) (key_deriver : String → String) (manifest : List String)
    (store : Store α) (storeExists : Bool) (r1 : LoopResult α ε)
    (h1 : full_pipeline model squeeze key_deriver manifest store storeExists =
      some r1)
    (h2 : r1.err = none) :
    full_pipeline model squeeze key_deriver manifest r1.store true =
      some ⟨r1.store, [], 0, none, 0⟩ ∧
    ∀ s : Store α,
      single_gpu_extract model squeeze key_deriver ([] : List (Item String)) s =
        ⟨s, [], 0, none, 0⟩ := by
  cases storeExists with
  | false =>
    cases htok : tokensOf manifest with
    | none => simp [full_pipeline, inference_plan, htok] at h1
    | some ids =>
      have h1' : single_gpu_extract model squeeze key_deriver
          (ids.map fun t => (⟨t, t⟩ : Item String)) store = r1 := by
        simpa [full_pipeline, inference_plan, htok] using h1
      refine ⟨?_, fun s => by simp [single_gpu_extract]⟩
      have herr : (single_gpu_extract model squeeze key_deriver
          (ids.map fun t => (⟨t, t⟩ : Item String)) store).err = none := by
        rw [h1']; exact h2
      have hall : ∀ l ∈ manifest, ∃ t, firstToken l = some t ∧
          storeContains r1.store (key_deriver t) = true := by
        intro l hl
        obtain ⟨t, ht, hmem⟩ := tokensOf_forall manifest ids htok l hl
        refine ⟨t, ht, ?_⟩
        have hc := extract_complete model squeeze key_deriver
          (ids.map fun t => (⟨t, t⟩ : Item String)) store herr ⟨t, t⟩
          (List.mem_map.mpr ⟨t, hmem, rfl⟩)
        rw [h1'] at hc
        exact hc
      have hfilter := filterLines_all_present r1.store key_deriver manifest hall
      simp [full_pipeline, inference_plan, hfilter, tokensOf, single_gpu_extract]
  | true =>
    cases hplan : filterLines store key_deriver manifest with
    | none => simp [full_pipeline, inference_plan, hplan] at h1
    | some residual =>
      cases htok : tokensOf residual with
      | none => simp [full_pipeline, inference_plan, hplan, htok] at h1
      | some ids =>
        have h1' : single_gpu_extract model squeeze key_deriver
            (ids.map fun t => (⟨t, t⟩ : Item String)) store = r1 := by
          simpa [full_pipeline, inference_plan, hplan, htok] using h1
        refine ⟨?_, fun s => by simp [single_gpu_extract]⟩
        have herr : (single_gpu_extract model squeeze key_deriver
            (ids.map fun t => (⟨t, t⟩ : Item String)) store).err = none := by
          rw [h1']; exact h2
        have hsub : ∀ k, storeContains store k = true →
            storeContains r1.store k = true := by
          intro k hk
          have hst := extract_store_append model squeeze key_deriver
            (ids.map fun t => (⟨t, t⟩ : Item String)) store
          rw [h1'] at hst
          rw [hst]
          exact storeContains_append_left store _ k hk
        have hall : ∀ l ∈ manifest, ∃ t, firstToken l = some t ∧
            storeContains r1.store (key_deriver t) = true := by
          intro l hl
          obtain ⟨t, ht, hor⟩ :=
            filterLines_forall_lines store key_deriver manifest residual hplan l hl
          refine ⟨t, ht, ?_⟩
          rcases hor with hor | hor
          · exact hsub _ hor
          · obtain ⟨t', ht', hmem⟩ := tokensOf_forall residual ids htok l hor
            have htt : t' = t := Option.some.inj (ht'.symm.trans ht)
            subst htt
            have hc := extract_complete model squeeze key_deriver
              (ids.map fun t => (⟨t, t⟩ : Item String)) store herr ⟨t', t'⟩
              (List.mem_map.mpr ⟨t', hmem, rfl⟩)
            rw [h1'] at hc
            exact hc
        have hfilter := filterLines_all_present r1.store key_deriver manifest hall
        simp [full_pipeline, inference_plan, hfilter, tokensOf, single_gpu_extract]

/-- Witness for C3: a completed first run over a two-line manifest, then the
second run plans nothing, calls the model zero times, and exits cleanly. -/
theorem C3_resume_idempotence_witness :
    full_pipeline (fun (_ : String) => (Except.ok 5 : Except Unit Nat)) id
      default_key ["a.mp4", "b.mp4"] ([] : Store Nat) false =
      some ⟨[("a", 5), ("b", 5)], [("a", 5), ("b", 5)], 2, none, 2⟩ ∧
    full_pipeline (fun (_ : String) => (Except.ok 5 : Except Unit Nat)) id
      default_key ["a.mp4", "b.mp4"] ([("a", 5), ("b", 5)] : Store Nat) true =
      some ⟨[("a", 5), ("b", 5)], [], 0, none, 0⟩ :=
  ⟨by decide,
   (C3_resume_idempotence (fun (_ : String) => (Except.ok 5 : Except Unit Nat))
     id default_key ["a.mp4", "b.mp4"] ([] : Store Nat) false
     ⟨[("a", 5), ("b", 5)], [("a", 5), ("b", 5)], 2, none, 2⟩
     (by decide) rfl).1⟩

theorem turnOffVal_dict (d : Entries) :
    turnOffVal (.dict d) = .dict (turnOffEntries d) := rfl

theorem turnOffVal_leaf (x : Option Nat) : turnOffVal (.leaf x) = .leaf x := rfl

theorem turnOffVal_list (l : CfgList) : turnOffVal (.list l) = .list l := rfl

theorem dictReachVal_dict (d : Entries) :
    dictReachVal (.dict d) = dictReachCleanEntries d := rfl

theorem dictReachVal_leaf (x : Option Nat) : dictReachVal (.leaf x) = true := rfl

theorem dictReachVal_list (l : CfgList) : dictReachVal (.list l) = true := rfl

mutual
theorem dictReachClean_turnOff_aux :
    ∀ c : Cfg, dictReachClean (turn_off_pretrained c) = true
  | .leaf _ => rfl
  | .dict es => by
    rw [turn_off_pretrained, dictReachClean]
    exact dictReachCleanEntries_turnOff_aux es
  | .list _ => rfl

theorem dictReachCleanEntries_turnOff_aux :
    ∀ es : Entries, dictReachCleanEntries (turnOffEntries es) = true
  | .nil => rfl
  | .cons k v rest => by
    have ih := dictReachCleanEntries_turnOff_aux rest
    rw [turnOffEntries, dictReachCleanEntries]
    cases hk : k == "pretrained" with
    | true =>
      simp [isSetVal, dictReachVal_leaf, ih]
    | false =>
      cases v with
      | dict d =>
        have ihd := dictReachCleanEntries_turnOff_aux d
        simp [hk, turnOffVal_dict, dictReachVal_dict, ihd, ih]
      | leaf x => simp [hk, turnOffVal_leaf, dictReachVal_leaf, ih]
      | list l => simp [hk, turnOffVal_list, dictReachVal_list, ih]
end

/-- C9 counterexample: a configuration whose only `pretrained` entry sits in a
dict inside a list-valued entry.  `turn_off_pretrained` recurses only into
dict-valued entries (`isinstance(sub_cfg, dict)`), so that node keeps its
non-`None` `pretrained` value, refuting the claim that no node anywhere —
including nodes reached through list-valued fields — retains one. -/
theorem C9_recursive_shutdown_counterexample :
    anyPretrainedSet (turn_off_pretrained
      (Cfg.dict (.cons "stages"
        (.list (.cons (.dict (.cons "pretrained" (.leaf (some 7)) .nil)) .nil))
        .nil))) = true := rfl

/-- C9 (amended): `turn_off_pretrained` sets `pretrained` to `None` at the
root and at every node reachable from it through chains of dict-valued
entries; nodes reached only through list-valued entries are not visited. -/
theorem C9_recursive_shutdown_amended (c : Cfg) :
    dictReachClean (turn_off_pretrained c) = true :=
  dictReachClean_turnOff_aux c

/-! ## Helper lemmas about the path primitives -/

theorem rfind_eq_neg_one (c : Char) :
    ∀ l : List Char, c ∉ l → rfind c l = -1
  | [], _ => rfl
  | x :: xs, h => by
    have hx : ¬ x = c := fun he => h (by simp [he])
    have ih := rfind_eq_neg_one c xs (fun hm => h (List.mem_cons_of_mem x hm))
    simp [rfind, ih, hx]

theorem rfind_append_cons (c : Char) :
    ∀ (l₁ l₂ : List Char), c ∉ l₂ →
      rfind c (l₁ ++ c :: l₂) = (l₁.length : Int)
  | [], l₂, h => by
    have h2 : rfind c l₂ = -1 := rfind_eq_neg_one c l₂ h
    simp [rfind, h2]
  | x :: l₁, l₂, h => by
    have ih := rfind_append_cons c l₁ l₂ h
    have hge : rfind c (l₁ ++ c :: l₂) ≥ 0 := by rw [ih]; omega
    simp [rfind, ih, hge]

theorem basenameL_append (d rest : List Char) (h : '/' ∉ rest) :
    basenameL (d ++ '/' :: rest) = rest := by
  have hsep := rfind_append_cons '/' d rest h
  rw [basenameL, hsep]
  have h1 : ((d.length : Int) + 1).toNat = (d ++ ['/']).length := by
    simp
  rw [h1]
  have h2 : d ++ '/' :: rest = (d ++ ['/']) ++ rest := by simp
  rw [h2, List.drop_left]

theorem splitext_root_append (n e : List Char) (hdn : '.' ∉ n) (hnn : n ≠ [])
    (hsn : '/' ∉ n) (hse : '/' ∉ e) (hde : '.' ∉ e) :
    splitext_root (n ++ '.' :: e) = n := by
  have hsep : rfind '/' (n ++ '.' :: e) = -1 := by
    refine rfind_eq_neg_one '/' _ (fun hm => ?_)
    rcases List.mem_append.mp hm with hm | hm
    · exact hsn hm
    · rcases List.mem_cons.mp hm with hm | hm
      · exact absurd hm (by decide)
      · exact hse hm
  have hdot : rfind '.' (n ++ '.' :: e) = (n.length : Int) :=
    rfind_append_cons '.' n e hde
  rw [splitext_root, hsep, hdot]
  have h0 : ((-1 : Int) + 1).toNat = 0 := rfl
  have h1 : ((n.length : Int) - ((-1 : Int) + 1)).toNat = n.length := by omega
  have h2 : ((n.length : Int)).toNat = n.length := by omega
  rw [h0, h1, h2]
  rw [List.drop_zero, List.take_left]
  obtain ⟨x, hx⟩ := List.exists_mem_of_ne_nil n hnn
  have hxd : (x == '.') = false := by
    have hne : x ≠ '.' := fun he => hdn (he ▸ hx)
    simp [hne]
  rw [if_pos]
  refine ⟨by omega, List.any_eq_true.mpr ⟨x, hx, by simp [hxd]⟩⟩

theorem splitext_root_two_seps (d g n e : List Char) (hdn : '.' ∉ n)
    (hnn : n ≠ []) (hsn : '/' ∉ n) (hse : '/' ∉ e)
    (hde : '.' ∉ e) :
    splitext_root (d ++ '/' :: (g ++ '/' :: (n ++ '.' :: e))) =
      d ++ '/' :: (g ++ '/' :: n) := by
  have hsplit1 : d ++ '/' :: (g ++ '/' :: (n ++ '.' :: e)) =
      (d ++ '/' :: g) ++ '/' :: (n ++ '.' :: e) := by simp
  have hsplit2 : d ++ '/' :: (g ++ '/' :: (n ++ '.' :: e)) =
      (d ++ '/' :: (g ++ '/' :: n)) ++ '.' :: e := by simp
  have hsep : rfind '/' (d ++ '/' :: (g ++ '/' :: (n ++ '.' :: e))) =
      ((d ++ '/' :: g).length : Int) := by
    rw [hsplit1]
    refine rfind_append_cons '/' _ _ (fun hm => ?_)
    rcases List.mem_append.mp hm with hm | hm
    · exact hsn hm
    · rcases List.mem_cons.mp hm with hm | hm
      · exact absurd hm (by decide)
      · exact hse hm
  have hdot : rfind '.' (d ++ '/' :: (g ++ '/' :: (n ++ '.' :: e))) =
      ((d ++ '/' :: (g ++ '/' :: n)).length : Int) := by
    rw [hsplit2]
    exact rfind_append_cons '.' _ e hde
  rw [splitext_root, hsep, hdot]
  have hlen1 : (d ++ '/' :: g).length = d.length + g.length + 1 := by
    simp
    omega
  have hlen2 : (d ++ '/' :: (g ++ '/' :: n)).length =
      d.length + g.length + n.length + 2 := by
    simp
    omega
  have h1 : (((d ++ '/' :: g).length : Int) + 1).toNat =
      (d ++ '/' :: g ++ ['/']).length := by
    simp
    omega
  have h2 : (((d ++ '/' :: (g ++ '/' :: n)).length : Int) -
      (((d ++ '/' :: g).length : Int) + 1)).toNat = n.length := by
    rw [hlen1, hlen2]
    omega
  have h3 : (((d ++ '/' :: (g ++ '/' :: n)).length : Int)).toNat =
      (d ++ '/' :: (g ++ '/' :: n)).length := by omega
  rw [h1, h2, h3]
  have hdrop : (d ++ '/' :: (g ++ '/' :: (n ++ '.' :: e))).drop
      (d ++ '/' :: g ++ ['/']).length = n ++ '.' :: e := by
    have : d ++ '/' :: (g ++ '/' :: (n ++ '.' :: e)) =
        (d ++ '/' :: g ++ ['/']) ++ (n ++ '.' :: e) := by simp
    rw [this, List.drop_left]
  have htake : (d ++ '/' :: (g ++ '/' :: (n ++ '.' :: e))).take
      (d ++ '/' :: (g ++ '/' :: n)).length = d ++ '/' :: (g ++ '/' :: n) := by
    rw [hsplit2, List.take_left]
  rw [hdrop, List.take_left, htake]
  obtain ⟨x, hx⟩ := List.exists_mem_of_ne_nil n hnn
  have hxd : (x == '.') = false := by
    have hne : x ≠ '.' := fun he => hdn (he ▸ hx)
    simp [hne]
  rw [if_pos]
  refine ⟨?_, List.any_eq_true.mpr ⟨x, hx, by simp [hxd]⟩⟩
  rw [hlen1, hlen2]
  omega

theorem splitSlash_ne_nil : ∀ l : List Char, splitSlash l ≠ []
  | [] => by simp [splitSlash]
  | c :: cs => by
    by_cases hc : c = '/'
    · subst hc
      simp [splitSlash]
    · cases hs : splitSlash cs with
      | nil => exact absurd hs (splitSlash_ne_nil cs)
      | cons h t => simp [splitSlash, hc, hs]

theorem splitSlash_no_slash : ∀ l : List Char, '/' ∉ l → splitSlash l = [l]
  | [], _ => rfl
  | c :: cs, h => by
    have hc : ¬ c = '/' := fun he => h (by simp [he])
    have ih := splitSlash_no_slash cs (fun hm => h (List.mem_cons_of_mem c hm))
    simp [splitSlash, hc, ih]

theorem splitSlash_append :
    ∀ l₁ l₂ : List Char, splitSlash (l₁ ++ '/' :: l₂) =
      splitSlash l₁ ++ splitSlash l₂
  | [], l₂ => by simp [splitSlash]
  | c :: l₁, l₂ => by
    have ih := splitSlash_append l₁ l₂
    by_cases hc : c = '/'
    · subst hc
      simp [splitSlash, ih]
    · cases hs : splitSlash l₁ with
      | nil => exact absurd hs (splitSlash_ne_nil l₁)
      | cons h t =>
        simp [splitSlash, hc, ih, hs]

theorem lastTwo_append_pair (sd : List (List Char)) (g n : List Char) :
    lastTwo (sd ++ [g, n]) = [g, n] := by
  rw [lastTwo]
  have h1 : (sd ++ [g, n]).length - 2 = sd.length := by simp
  rw [h1]
  exact List.drop_left sd [g, n]

theorem intercalate_pair (a b : List Char) :
    List.intercalate ['/'] [a, b] = a ++ '/' :: b := by
  simp [List.intercalate, List.intersperse]

/-- C5: key derivation per convention, over any well-formed decomposition of a
source identifier: for every path of the form `dir/name.ext` — where `name`
is nonempty and free of separators and dots, and `ext` is free of separators
and dots — the default convention returns the base name `name` (directory
and extension stripped); for `dir/g/name.ext` with `g` separator-free, the
webvid convention returns the last two extension-stripped path segments
joined with the separator, `g/name`; and the anetqa convention returns the
base name without extension with its leading two-character tag removed. -/
theorem C5_key_derivation (dir g name ext : String) (hg : '/' ∉ g.data)
    (hn1 : '/' ∉ name.data) (hn2 : '.' ∉ name.data) (hn3 : name.data ≠ [])
    (he1 : '/' ∉ ext.data) (he2 : '.' ∉ ext.data) :
    applyConv KeyConv.default (dir ++ "/" ++ name ++ "." ++ ext) = name ∧
    applyConv KeyConv.webvid (dir ++ "/" ++ g ++ "/" ++ name ++ "." ++ ext) =
      g ++ "/" ++ name ∧
    applyConv KeyConv.anetqa (dir ++ "/" ++ name ++ "." ++ ext) =
      String.mk (name.data.drop 2) := by
  have hslash : ("/" : String).data = ['/'] := rfl
  have hdot : ("." : String).data = ['.'] := rfl
  have hrest : '/' ∉ name.data ++ '.' :: ext.data := by
    intro hm
    rcases List.mem_append.mp hm with hm | hm
    · exact hn1 hm
    · rcases List.mem_cons.mp hm with hm | hm
      · exact absurd hm (by decide)
      · exact he1 hm
  have hdata1 : (dir ++ "/" ++ name ++ "." ++ ext).data =
      dir.data ++ '/' :: (name.data ++ '.' :: ext.data) := by
    simp [String.data_append, hslash, hdot, List.append_assoc]
  have hdata2 : (dir ++ "/" ++ g ++ "/" ++ name ++ "." ++ ext).data =
      dir.data ++ '/' :: (g.data ++ '/' :: (name.data ++ '.' :: ext.data)) := by
    simp [String.data_append, hslash, hdot, List.append_assoc]
  have hroot1 : splitext_root (basenameL (dir ++ "/" ++ name ++ "." ++ ext).data) =
      name.data := by
    rw [hdata1, basenameL_append dir.data _ hrest,
      splitext_root_append name.data ext.data hn2 hn3 hn1 he1 he2]
  refine ⟨?_, ?_, ?_⟩
  · apply String.ext
    show splitext_root (basenameL (dir ++ "/" ++ name ++ "." ++ ext).data) =
      name.data
    exact hroot1
  · apply String.ext
    show List.intercalate ['/'] (lastTwo (splitSlash
        (splitext_root (dir ++ "/" ++ g ++ "/" ++ name ++ "." ++ ext).data))) =
      (g ++ "/" ++ name).data
    rw [hdata2,
      splitext_root_two_seps dir.data g.data name.data ext.data hn2 hn3 hn1 he1 he2,
      splitSlash_append dir.data (g.data ++ '/' :: name.data),
      splitSlash_append g.data name.data,
      splitSlash_no_slash g.data hg, splitSlash_no_slash name.data hn1]
    have hpair : splitSlash dir.data ++ ([g.data] ++ [name.data]) =
        splitSlash dir.data ++ [g.data, name.data] := rfl
    rw [hpair, lastTwo_append_pair, intercalate_pair]
    simp [String.data_append, hslash, List.append_assoc]
  · apply String.ext
    show (splitext_root (basenameL (dir ++ "/" ++ name ++ "." ++ ext).data)).drop 2 =
      (String.mk (name.data.drop 2)).data
    rw [hroot1]

/-- Witness for C5: `dir = "data"`, `g = "grp"`, `name = "clip1"`,
`ext = "mp4"`. -/
theorem C5_key_derivation_witness :
    applyConv KeyConv.default "data/clip1.mp4" = "clip1" ∧
    applyConv KeyConv.webvid "data/grp/clip1.mp4" = "grp/clip1" ∧
    applyConv KeyConv.anetqa "data/clip1.mp4" = String.mk ("clip1".data.drop 2) :=
  C5_key_derivation "data" "grp" "clip1" "mp4" (by decide) (by decide)
    (by decide) (by decide) (by decide) (by decide)

end Extract
